import Mathlib

/-!
Shallow embedding of `convert_ps_to_cubemaps.py`, an equirectangular
panorama to cubemap-face converter, together with theorems settling the
specification claims about it.

Modelling conventions:
* Python floats are modelled as exact numbers: the direction mapper is pure
  rational arithmetic and is embedded over `ℚ`; the sampler's trigonometry
  (`math.atan2`, `math.hypot`) is embedded over `ℝ`.
* `PIL` pixel access is modelled as a checked access returning `Option`
  (`None` models the `IndexError` an out-of-range access would raise).
* The mutable output image and the per-face double loop are modelled as a
  fold over the pixel coordinate list in source order, threading a `World`
  state (input image + output buffer) through `Option` (`none` models an
  uncaught exception aborting the loop).
-/

namespace Cubemap

/-- An RGB triple of 8-bit channels, as natural numbers. -/
abbrev RGBN := ℕ × ℕ × ℕ

/-- An RGB triple as produced by `int(round(...))`, i.e. integers. -/
abbrev RGBZ := ℤ × ℤ × ℤ

/-- The decoded source image: width, height, and a pixel grid.
`pix` is total on `ℕ × ℕ`; bounds are enforced by `getPix`. -/
structure SrcImage where
  width : ℕ
  height : ℕ
  pix : ℕ → ℕ → RGBN

/-- The destination face image (`output_image`): a square buffer of edge
length `edge` holding integer RGB triples. -/
structure FaceBuffer where
  edge : ℕ
  pix : ℕ × ℕ → RGBZ

/-- The state visible to `generate_cubemap_face`: the source image and the
destination buffer.  The source is part of the mutable world so that
non-interference (claim about frame effects) is expressible. -/
structure World where
  inp : SrcImage
  outp : FaceBuffer

/-- The face-name dictionary of the source, mapping back, left, front,
right, top, bottom to the ids 0, 1, 2, 3, 4, 5. -/
def CUBEMAP_FACES (s : String) : Option ℕ :=
  if s = "back" then some 0
  else if s = "left" then some 1
  else if s = "front" then some 2
  else if s = "right" then some 3
  else if s = "top" then some 4
  else if s = "bottom" then some 5
  else none

/-- Source function `output_image_to_xyz(i, j, cube_face_id, edge_length)`:
`a = 2.0*float(i)/edge_length`, `b = 2.0*float(j)/edge_length`, then a
six-way branch on the face id assigns `(x, y, z)`.  When `cube_face_id`
matches no branch, no assignment happens and the trailing
`return (x, y, z)` raises (modelled as `none`). -/
def output_image_to_xyz (i j cube_face_id edge_length : ℕ) : Option (ℚ × ℚ × ℚ) :=
  let a : ℚ := 2 * (i : ℚ) / (edge_length : ℚ)
  let b : ℚ := 2 * (j : ℚ) / (edge_length : ℚ)
  if some cube_face_id = CUBEMAP_FACES "back" then some (-1, 1 - a, 1 - b)
  else if some cube_face_id = CUBEMAP_FACES "left" then some (a - 1, -1, 1 - b)
  else if some cube_face_id = CUBEMAP_FACES "front" then some (1, a - 1, 1 - b)
  else if some cube_face_id = CUBEMAP_FACES "right" then some (1 - a, 1, 1 - b)
  else if some cube_face_id = CUBEMAP_FACES "top" then some (b - 1, a - 1, 1)
  else if some cube_face_id = CUBEMAP_FACES "bottom" then some (1 - b, a - 1, -1)
  else none

/-- The face-specific direction table exactly as the specification words it:
back `(-1, 1-a, 1-b)`; left `(a-1, -1, 1-b)`; front `(1, a-1, 1-b)`;
right `(1-a, 1, 1-b)`; top `(b-1, a-1, 1)`; bottom `(1-b, a-1, -1)`. -/
def spec_direction (face : ℕ) (a b : ℚ) : ℚ × ℚ × ℚ :=
  match face with
  | 0 => (-1, 1 - a, 1 - b)
  | 1 => (a - 1, -1, 1 - b)
  | 2 => (1, a - 1, 1 - b)
  | 3 => (1 - a, 1, 1 - b)
  | 4 => (b - 1, a - 1, 1)
  | _ => (1 - b, a - 1, -1)

/-- C1: for each of the six face identifiers, every positive edge length `E`
and every pixel `(col, row)` with `col < E`, `row < E`, the direction mapper
(called with `col` first, `row` second) returns exactly the direction given
by `a = 2·col/E`, `b = 2·row/E` and the face-specific table. -/
theorem direction_mapper_matches_table
    (face E col row : ℕ) (hface : face < 6) (hE : 0 < E)
    (hcol : col < E) (hrow : row < E) :
    output_image_to_xyz col row face E =
      some (spec_direction face (2 * (col : ℚ) / E) (2 * (row : ℚ) / E)) := by
  interval_cases face <;>
    simp [output_image_to_xyz, CUBEMAP_FACES, spec_direction]

/-- Witness for C1 at face `front` (id 2), `E = 4`, pixel `(1, 3)`. -/
theorem direction_mapper_matches_table_w :
    (2 : ℕ) < 6 ∧ (0 : ℕ) < 4 ∧ (1 : ℕ) < 4 ∧ (3 : ℕ) < 4 ∧
      output_image_to_xyz 1 3 2 4 =
        some (spec_direction 2 (2 * (1 : ℚ) / 4) (2 * (3 : ℚ) / 4)) :=
  ⟨by decide, by decide, by decide, by decide,
    direction_mapper_matches_table 2 4 1 3 (by decide) (by decide)
      (by decide) (by decide)⟩

/-- C10: for a face id outside `{0,…,5}` no branch assigns `(x,y,z)` and the
function fails at its return statement: the embedding yields `none`, for
every pixel position and edge length. -/
theorem invalid_face_yields_none
    (i j cube_face_id edge_length : ℕ) (h : 6 ≤ cube_face_id) :
    output_image_to_xyz i j cube_face_id edge_length = none := by
  have h0 : cube_face_id ≠ 0 := by omega
  have h1 : cube_face_id ≠ 1 := by omega
  have h2 : cube_face_id ≠ 2 := by omega
  have h3 : cube_face_id ≠ 3 := by omega
  have h4 : cube_face_id ≠ 4 := by omega
  have h5 : cube_face_id ≠ 5 := by omega
  simp [output_image_to_xyz, CUBEMAP_FACES, h0, h1, h2, h3, h4, h5]

/-- Witness for C10 at face id 6. -/
theorem invalid_face_yields_none_w :
    (6 : ℕ) ≤ 6 ∧ output_image_to_xyz 0 0 6 1 = none :=
  ⟨by decide, invalid_face_yields_none 0 0 6 1 (by decide)⟩

open Real

/-- Python `math.atan2(y, x)`: the two-argument arctangent, by the standard case
split (the source only ever evaluates it away from the origin). -/
noncomputable def atan2 (y x : ℝ) : ℝ :=
  if 0 < x then arctan (y / x)
  else if x < 0 then (if 0 ≤ y then arctan (y / x) + π else arctan (y / x) - π)
  else (if 0 < y then π / 2 else if y < 0 then -(π / 2) else 0)

/-- Python `math.hypot(x, y) = sqrt(x·x + y·y)`. -/
noncomputable def hypot (x y : ℝ) : ℝ :=
  Real.sqrt (x * x + y * y)

/-- Lines 73–79 of the source: spherical angles from the direction, then the
fractional source coordinates; both coordinates are scaled by
`input_size[0]`, the source image width. -/
noncomputable def sample_uv (img : SrcImage) (x y z : ℝ) : ℝ × ℝ :=
  let theta := atan2 y x
  let r := hypot x y
  let phi := atan2 z r
  let uf := 0.5 * (img.width : ℝ) * (theta + π) / π
  let vf := 0.5 * (img.width : ℝ) * (π / 2 - phi) / π
  (uf, vf)

/-- Numpy clamping `np.clip(v, lo, hi)`. -/
def clip (v lo hi : ℤ) : ℤ := max lo (min v hi)

/-- Checked pixel access `input_pixels[u, v]`: `none` models the
`IndexError` raised on an out-of-range access. -/
def getPix (img : SrcImage) (u v : ℤ) : Option RGBN :=
  if 0 ≤ u ∧ u < (img.width : ℤ) ∧ 0 ≤ v ∧ v < (img.height : ℤ) then
    some (img.pix u.toNat v.toNat)
  else none

/-- Python 2 rounding `int(round(x))`: round half away from zero, then truncate
(the rounded value is integral, so truncation is exact). -/
noncomputable def pyRound (x : ℝ) : ℤ :=
  if 0 ≤ x then ⌊x + 1 / 2⌋ else -⌊-x + 1 / 2⌋

/-- Lines 97–102 of the source: blend the four corner colors channelwise
with weights `(1-mu)(1-nu), mu(1-nu), (1-mu)nu, mu·nu`, then
`int(round(...))` each channel. -/
noncomputable def blendRound (A B C D : RGBN) (mu nu : ℝ) : RGBZ :=
  (pyRound ((A.1 : ℝ) * (1 - mu) * (1 - nu) + (B.1 : ℝ) * mu * (1 - nu)
      + (C.1 : ℝ) * (1 - mu) * nu + (D.1 : ℝ) * mu * nu),
   pyRound ((A.2.1 : ℝ) * (1 - mu) * (1 - nu) + (B.2.1 : ℝ) * mu * (1 - nu)
      + (C.2.1 : ℝ) * (1 - mu) * nu + (D.2.1 : ℝ) * mu * nu),
   pyRound ((A.2.2 : ℝ) * (1 - mu) * (1 - nu) + (B.2.2 : ℝ) * mu * (1 - nu)
      + (C.2.2 : ℝ) * (1 - mu) * nu + (D.2.2 : ℝ) * mu * nu))

/-- Lines 82–102 of the source: the bilinear interpolation step.  Corner
columns are `floor(uf)` and `floor(uf)+1` reduced modulo the width; corner
rows are `floor(vf)` and `floor(vf)+1` clipped to `[0, H-1]`; the four
corner colors are blended channelwise and rounded. -/
noncomputable def bilinear (img : SrcImage) (uf vf : ℝ) : Option RGBZ :=
  let ui : ℤ := ⌊uf⌋
  let vi : ℤ := ⌊vf⌋
  let u2 : ℤ := ui + 1
  let v2 : ℤ := vi + 1
  let mu : ℝ := uf - (ui : ℝ)
  let nu : ℝ := vf - (vi : ℝ)
  let W : ℤ := (img.width : ℤ)
  let H : ℤ := (img.height : ℤ)
  match getPix img (ui % W) (clip vi 0 (H - 1)), getPix img (u2 % W) (clip vi 0 (H - 1)),
      getPix img (ui % W) (clip v2 0 (H - 1)), getPix img (u2 % W) (clip v2 0 (H - 1)) with
  | some A, some B, some C, some D => some (blendRound A B C D mu nu)
  | _, _, _, _ => none

/-- The body of the per-pixel loop of `generate_cubemap_face`: direction,
angles, source coordinates, bilinear sample.  `none` models an exception
(unassigned direction for an invalid face, or an out-of-range access). -/
noncomputable def generate_face_pixel (img : SrcImage) (face E i j : ℕ) : Option RGBZ :=
  match output_image_to_xyz i j face E with
  | none => none
  | some (x, y, z) =>
      let uv := sample_uv img ((x : ℝ)) ((y : ℝ)) ((z : ℝ))
      bilinear img uv.1 uv.2

/-- C2: the sampler computes `theta = atan2(y,x)`, `r = hypot(x,y)`,
`phi = atan2(z,r)`, `u = 0.5·W·(theta+π)/π`, `v = 0.5·W·(π/2-phi)/π`, where
both formulas use the source WIDTH; the source height never enters, so two
images of equal width and arbitrary heights give identical `(u, v)`. -/
theorem sampler_uv_uses_width_only (img img2 : SrcImage) (x y z : ℝ)
    (hW : img.width = img2.width) :
    sample_uv img x y z =
      (0.5 * (img.width : ℝ) * (atan2 y x + π) / π,
       0.5 * (img.width : ℝ) * (π / 2 - atan2 z (hypot x y)) / π) ∧
    sample_uv img x y z = sample_uv img2 x y z := by
  refine ⟨rfl, ?_⟩
  simp only [sample_uv, hW]

/-- Witness for C2: two images of width 4 and different heights. -/
theorem sampler_uv_uses_width_only_w :
    (SrcImage.mk 4 2 (fun _ _ => (0, 0, 0))).width
        = (SrcImage.mk 4 9 (fun _ _ => (0, 0, 0))).width ∧
    (sample_uv (SrcImage.mk 4 2 (fun _ _ => (0, 0, 0))) 1 0 0 =
      (0.5 * ((SrcImage.mk 4 2 (fun _ _ => (0, 0, 0))).width : ℝ) * (atan2 0 1 + π) / π,
       0.5 * ((SrcImage.mk 4 2 (fun _ _ => (0, 0, 0))).width : ℝ) * (π / 2 - atan2 0 (hypot 1 0)) / π) ∧
     sample_uv (SrcImage.mk 4 2 (fun _ _ => (0, 0, 0))) 1 0 0 =
       sample_uv (SrcImage.mk 4 9 (fun _ _ => (0, 0, 0))) 1 0 0) :=
  ⟨rfl, sampler_uv_uses_width_only _ _ 1 0 0 rfl⟩

/-- A column index reduced modulo a positive width lies in `[0, W)`. -/
lemma emod_width_bounds (u W : ℤ) (hW : 0 < W) : 0 ≤ u % W ∧ u % W < W :=
  ⟨Int.emod_nonneg u hW.ne', Int.emod_lt_of_pos u hW⟩

/-- A row index clipped to `[0, H-1]` lies in `[0, H)` when `0 < H`. -/
lemma clip_row_bounds (v H : ℤ) (hH : 0 < H) :
    0 ≤ clip v 0 (H - 1) ∧ clip v 0 (H - 1) < H := by
  refine ⟨le_max_left _ _, max_lt hH ?_⟩
  exact lt_of_le_of_lt (min_le_right _ _) (by omega)

/-- In-bounds accesses succeed. -/
lemma getPix_eq_some (img : SrcImage) (u v : ℤ)
    (hu0 : 0 ≤ u) (hu : u < (img.width : ℤ))
    (hv0 : 0 ≤ v) (hv : v < (img.height : ℤ)) :
    getPix img u v = some (img.pix u.toNat v.toNat) := by
  simp [getPix, hu0, hu, hv0, hv]

/-- On a positive-size image the bilinear step always succeeds, returning
the rounded blend of the four in-bounds corner pixels. -/
lemma bilinear_eq_some (img : SrcImage) (uf vf : ℝ)
    (hW : 0 < img.width) (hH : 0 < img.height) :
    bilinear img uf vf =
      some (blendRound
        (img.pix ((⌊uf⌋ % (img.width : ℤ)).toNat)
          ((clip ⌊vf⌋ 0 ((img.height : ℤ) - 1)).toNat))
        (img.pix (((⌊uf⌋ + 1) % (img.width : ℤ)).toNat)
          ((clip ⌊vf⌋ 0 ((img.height : ℤ) - 1)).toNat))
        (img.pix ((⌊uf⌋ % (img.width : ℤ)).toNat)
          ((clip (⌊vf⌋ + 1) 0 ((img.height : ℤ) - 1)).toNat))
        (img.pix (((⌊uf⌋ + 1) % (img.width : ℤ)).toNat)
          ((clip (⌊vf⌋ + 1) 0 ((img.height : ℤ) - 1)).toNat))
        (uf - (⌊uf⌋ : ℝ)) (vf - (⌊vf⌋ : ℝ))) := by
  have hW' : (0 : ℤ) < (img.width : ℤ) := by exact_mod_cast hW
  have hH' : (0 : ℤ) < (img.height : ℤ) := by exact_mod_cast hH
  have m1 := emod_width_bounds ⌊uf⌋ _ hW'
  have m2 := emod_width_bounds (⌊uf⌋ + 1) _ hW'
  have c1 := clip_row_bounds ⌊vf⌋ _ hH'
  have c2 := clip_row_bounds (⌊vf⌋ + 1) _ hH'
  simp only [bilinear]
  rw [getPix_eq_some img _ _ m1.1 m1.2 c1.1 c1.2,
    getPix_eq_some img _ _ m2.1 m2.2 c1.1 c1.2,
    getPix_eq_some img _ _ m1.1 m1.2 c2.1 c2.2,
    getPix_eq_some img _ _ m2.1 m2.2 c2.1 c2.2]

/-- A negative fractional row coordinate clips to row 0. -/
lemma clip_neg_row (vf : ℝ) (hi : ℤ) (hvf : vf < 0) : clip ⌊vf⌋ 0 hi = 0 := by
  have hfl : ⌊vf⌋ < 0 := by
    have := Int.floor_le vf
    by_contra hc
    push_neg at hc
    have : (0 : ℝ) ≤ vf := le_trans (by exact_mod_cast hc) this
    linarith
  simp only [clip]
  omega

/-- At the north pole direction `(0, 0, 1)` the computed `phi` is `π/2` and
the fractional row coordinate is `0`. -/
lemma sample_v_at_pole (img : SrcImage) : (sample_uv img 0 0 1).2 = 0 := by
  have hh : hypot 0 0 = 0 := by simp [hypot]
  have hphi : atan2 1 (hypot 0 0) = π / 2 := by
    rw [hh]
    simp [atan2]
  simp only [sample_uv, hphi]
  ring

/-- C3: the bilinear step uses columns `⌊u⌋` and `⌊u⌋+1` modulo `W` (both in
`[0, W)`, and `u = W` wraps to column 0) and rows `⌊v⌋`, `⌊v⌋+1` clipped to
`[0, H-1]` (both in `[0, H)`); any `v < 0` clips to row 0, at `phi = π/2`
the row coordinate is 0 and clips to row 0, and all four accesses of the
`W × H` grid are in bounds, so the sample succeeds. -/
theorem bilinear_access_in_bounds (img : SrcImage) (uf vf : ℝ)
    (hW : 0 < img.width) (hH : 0 < img.height) :
    (0 ≤ ⌊uf⌋ % (img.width : ℤ) ∧ ⌊uf⌋ % (img.width : ℤ) < (img.width : ℤ)) ∧
    (0 ≤ (⌊uf⌋ + 1) % (img.width : ℤ) ∧ (⌊uf⌋ + 1) % (img.width : ℤ) < (img.width : ℤ)) ∧
    (0 ≤ clip ⌊vf⌋ 0 ((img.height : ℤ) - 1) ∧
      clip ⌊vf⌋ 0 ((img.height : ℤ) - 1) < (img.height : ℤ)) ∧
    (0 ≤ clip (⌊vf⌋ + 1) 0 ((img.height : ℤ) - 1) ∧
      clip (⌊vf⌋ + 1) 0 ((img.height : ℤ) - 1) < (img.height : ℤ)) ∧
    ⌊((img.width : ℝ))⌋ % (img.width : ℤ) = 0 ∧
    (vf < 0 → clip ⌊vf⌋ 0 ((img.height : ℤ) - 1) = 0) ∧
    ((sample_uv img 0 0 1).2 = 0 ∧
      clip ⌊(sample_uv img 0 0 1).2⌋ 0 ((img.height : ℤ) - 1) = 0) ∧
    (bilinear img uf vf).isSome := by
  have hW' : (0 : ℤ) < (img.width : ℤ) := by exact_mod_cast hW
  have hH' : (0 : ℤ) < (img.height : ℤ) := by exact_mod_cast hH
  refine ⟨emod_width_bounds _ _ hW', emod_width_bounds _ _ hW',
    clip_row_bounds _ _ hH', clip_row_bounds _ _ hH', ?_, ?_, ⟨?_, ?_⟩, ?_⟩
  · rw [Int.floor_natCast]
    exact Int.emod_self
  · exact fun hvf => clip_neg_row vf _ hvf
  · exact sample_v_at_pole img
  · rw [sample_v_at_pole img]
    simp only [clip, Int.floor_zero]
    omega
  · rw [bilinear_eq_some img uf vf hW hH]
    rfl

/-- Witness for C3 on a 3×2 image at `uf = vf = -1/2`. -/
theorem bilinear_access_in_bounds_w :
    (0 : ℕ) < (SrcImage.mk 3 2 (fun _ _ => (7, 7, 7))).width ∧
    (0 : ℕ) < (SrcImage.mk 3 2 (fun _ _ => (7, 7, 7))).height ∧
    (bilinear (SrcImage.mk 3 2 (fun _ _ => (7, 7, 7))) (-(1 / 2)) (-(1 / 2))).isSome :=
  ⟨by decide, by decide,
    (bilinear_access_in_bounds (SrcImage.mk 3 2 (fun _ _ => (7, 7, 7)))
      (-(1 / 2)) (-(1 / 2)) (by decide) (by decide)).2.2.2.2.2.2.2⟩

/-- Rounding an exact (natural) channel value returns it unchanged. -/
lemma pyRound_natCast (n : ℕ) : pyRound ((n : ℝ)) = (n : ℤ) := by
  rw [pyRound, if_pos (by positivity)]
  refine Int.floor_eq_iff.mpr ⟨?_, ?_⟩ <;> push_cast <;> linarith

/-- With zero fractional weights the blend is the first corner exactly. -/
lemma blendRound_zero_weights (A B C D : RGBN) :
    blendRound A B C D 0 0 = ((A.1 : ℤ), (A.2.1 : ℤ), (A.2.2 : ℤ)) := by
  simp [blendRound, pyRound_natCast]

/-- C5: when the fractional source coordinates are both exact integers
(`mu = nu = 0`), the bilinear blend returns exactly the color of the single
source pixel at column `u mod W` and row `clip(v, 0, H-1)`. -/
theorem bilinear_integer_identity (img : SrcImage) (m n : ℤ)
    (hW : 0 < img.width) (hH : 0 < img.height) :
    bilinear img ((m : ℝ)) ((n : ℝ)) =
      some
        (((img.pix ((m % (img.width : ℤ)).toNat)
            ((clip n 0 ((img.height : ℤ) - 1)).toNat)).1 : ℤ),
         ((img.pix ((m % (img.width : ℤ)).toNat)
            ((clip n 0 ((img.height : ℤ) - 1)).toNat)).2.1 : ℤ),
         ((img.pix ((m % (img.width : ℤ)).toNat)
            ((clip n 0 ((img.height : ℤ) - 1)).toNat)).2.2 : ℤ)) := by
  rw [bilinear_eq_some img _ _ hW hH]
  rw [Int.floor_intCast, Int.floor_intCast, sub_self, sub_self,
    blendRound_zero_weights]

/-- Witness for C5 on a 2×2 image at `(u, v) = (1, 0)`. -/
theorem bilinear_integer_identity_w :
    (0 : ℕ) < (SrcImage.mk 2 2 (fun u v => (u + 9, v + 5, 3))).width ∧
    (0 : ℕ) < (SrcImage.mk 2 2 (fun u v => (u + 9, v + 5, 3))).height ∧
    bilinear (SrcImage.mk 2 2 (fun u v => (u + 9, v + 5, 3))) ((1 : ℤ)) ((0 : ℤ)) =
      some
        ((((SrcImage.mk 2 2 (fun u v => (u + 9, v + 5, 3))).pix
            (((1 : ℤ) % ((SrcImage.mk 2 2 (fun u v => (u + 9, v + 5, 3))).width : ℤ)).toNat)
            ((clip 0 0 (((SrcImage.mk 2 2 (fun u v => (u + 9, v + 5, 3))).height : ℤ) - 1)).toNat)).1 : ℤ),
         (((SrcImage.mk 2 2 (fun u v => (u + 9, v + 5, 3))).pix
            (((1 : ℤ) % ((SrcImage.mk 2 2 (fun u v => (u + 9, v + 5, 3))).width : ℤ)).toNat)
            ((clip 0 0 (((SrcImage.mk 2 2 (fun u v => (u + 9, v + 5, 3))).height : ℤ) - 1)).toNat)).2.1 : ℤ),
         (((SrcImage.mk 2 2 (fun u v => (u + 9, v + 5, 3))).pix
            (((1 : ℤ) % ((SrcImage.mk 2 2 (fun u v => (u + 9, v + 5, 3))).width : ℤ)).toNat)
            ((clip 0 0 (((SrcImage.mk 2 2 (fun u v => (u + 9, v + 5, 3))).height : ℤ) - 1)).toNat)).2.2 : ℤ)) :=
  ⟨by decide, by decide,
    bilinear_integer_identity (SrcImage.mk 2 2 (fun u v => (u + 9, v + 5, 3))) 1 0
      (by decide) (by decide)⟩

/-- The fractional weight `x - ⌊x⌋` lies in `[0, 1]`. -/
lemma floor_frac_bounds (x : ℝ) : 0 ≤ x - (⌊x⌋ : ℝ) ∧ x - (⌊x⌋ : ℝ) ≤ 1 := by
  constructor
  · exact sub_nonneg.mpr (Int.floor_le x)
  · have := Int.lt_floor_add_one x
    linarith

/-- A convex bilinear combination of channels in `[0, 255]` stays in
`[0, 255]`. -/
lemma blend_channel_bounds (a b c d : ℕ) (mu nu : ℝ)
    (hmu0 : 0 ≤ mu) (hmu1 : mu ≤ 1) (hnu0 : 0 ≤ nu) (hnu1 : nu ≤ 1)
    (ha : a ≤ 255) (hb : b ≤ 255) (hc : c ≤ 255) (hd : d ≤ 255) :
    0 ≤ (a : ℝ) * (1 - mu) * (1 - nu) + (b : ℝ) * mu * (1 - nu)
        + (c : ℝ) * (1 - mu) * nu + (d : ℝ) * mu * nu ∧
    (a : ℝ) * (1 - mu) * (1 - nu) + (b : ℝ) * mu * (1 - nu)
        + (c : ℝ) * (1 - mu) * nu + (d : ℝ) * mu * nu ≤ 255 := by
  have w1 : (0 : ℝ) ≤ (1 - mu) * (1 - nu) := mul_nonneg (by linarith) (by linarith)
  have w2 : (0 : ℝ) ≤ mu * (1 - nu) := mul_nonneg hmu0 (by linarith)
  have w3 : (0 : ℝ) ≤ (1 - mu) * nu := mul_nonneg (by linarith) hnu0
  have w4 : (0 : ℝ) ≤ mu * nu := mul_nonneg hmu0 hnu0
  have ha' : (a : ℝ) ≤ 255 := by exact_mod_cast ha
  have hb' : (b : ℝ) ≤ 255 := by exact_mod_cast hb
  have hc' : (c : ℝ) ≤ 255 := by exact_mod_cast hc
  have hd' : (d : ℝ) ≤ 255 := by exact_mod_cast hd
  have ha0 : (0 : ℝ) ≤ (a : ℝ) := Nat.cast_nonneg a
  have hb0 : (0 : ℝ) ≤ (b : ℝ) := Nat.cast_nonneg b
  have hc0 : (0 : ℝ) ≤ (c : ℝ) := Nat.cast_nonneg c
  have hd0 : (0 : ℝ) ≤ (d : ℝ) := Nat.cast_nonneg d
  constructor
  · nlinarith [mul_nonneg ha0 w1, mul_nonneg hb0 w2, mul_nonneg hc0 w3,
      mul_nonneg hd0 w4]
  · nlinarith [mul_le_mul_of_nonneg_right ha' w1, mul_le_mul_of_nonneg_right hb' w2,
      mul_le_mul_of_nonneg_right hc' w3, mul_le_mul_of_nonneg_right hd' w4]

/-- Rounding preserves membership in `[0, 255]`. -/
lemma pyRound_mem (x : ℝ) (h0 : 0 ≤ x) (h255 : x ≤ 255) :
    0 ≤ pyRound x ∧ pyRound x ≤ 255 := by
  rw [pyRound, if_pos h0]
  constructor
  · exact Int.le_floor.mpr (by push_cast; linarith)
  · have hlt : ⌊x + 1 / 2⌋ < 256 := Int.floor_lt.mpr (by push_cast; linarith)
    omega

/-- The bilinear step fails (raises) on a degenerate zero-size grid. -/
lemma bilinear_degenerate (img : SrcImage) (uf vf : ℝ)
    (h : img.width = 0 ∨ img.height = 0) : bilinear img uf vf = none := by
  have hnone : ∀ u v : ℤ, getPix img u v = none := by
    intro u v
    rw [getPix, if_neg]
    rintro ⟨h1, h2, h3, h4⟩
    rcases h with h | h
    · rw [h] at h2
      simp only [Nat.cast_zero] at h2
      omega
    · rw [h] at h4
      simp only [Nat.cast_zero] at h4
      omega
  simp [bilinear, hnone]

/-- C7: if every channel of the source image is in `[0, 255]` then every
blended-and-rounded output channel is in `[0, 255]`, with no explicit clamp:
the four weights are nonnegative and sum to 1. -/
theorem sampler_output_in_range (img : SrcImage) (uf vf : ℝ) (col : RGBZ)
    (hpix : ∀ u v, (img.pix u v).1 ≤ 255 ∧ (img.pix u v).2.1 ≤ 255 ∧
      (img.pix u v).2.2 ≤ 255)
    (hres : bilinear img uf vf = some col) :
    (0 ≤ col.1 ∧ col.1 ≤ 255) ∧ (0 ≤ col.2.1 ∧ col.2.1 ≤ 255) ∧
      (0 ≤ col.2.2 ∧ col.2.2 ≤ 255) := by
  rcases Nat.eq_zero_or_pos img.width with hW | hW
  · rw [bilinear_degenerate img uf vf (Or.inl hW)] at hres
    exact absurd hres (by simp)
  rcases Nat.eq_zero_or_pos img.height with hH | hH
  · rw [bilinear_degenerate img uf vf (Or.inr hH)] at hres
    exact absurd hres (by simp)
  rw [bilinear_eq_some img uf vf hW hH] at hres
  have hcol := (Option.some.inj hres).symm
  subst hcol
  have hmu := floor_frac_bounds uf
  have hnu := floor_frac_bounds vf
  refine ⟨?_, ?_, ?_⟩
  · exact pyRound_mem _
      (blend_channel_bounds _ _ _ _ _ _ hmu.1 hmu.2 hnu.1 hnu.2
        (hpix _ _).1 (hpix _ _).1 (hpix _ _).1 (hpix _ _).1).1
      (blend_channel_bounds _ _ _ _ _ _ hmu.1 hmu.2 hnu.1 hnu.2
        (hpix _ _).1 (hpix _ _).1 (hpix _ _).1 (hpix _ _).1).2
  · exact pyRound_mem _
      (blend_channel_bounds _ _ _ _ _ _ hmu.1 hmu.2 hnu.1 hnu.2
        (hpix _ _).2.1 (hpix _ _).2.1 (hpix _ _).2.1 (hpix _ _).2.1).1
      (blend_channel_bounds _ _ _ _ _ _ hmu.1 hmu.2 hnu.1 hnu.2
        (hpix _ _).2.1 (hpix _ _).2.1 (hpix _ _).2.1 (hpix _ _).2.1).2
  · exact pyRound_mem _
      (blend_channel_bounds _ _ _ _ _ _ hmu.1 hmu.2 hnu.1 hnu.2
        (hpix _ _).2.2 (hpix _ _).2.2 (hpix _ _).2.2 (hpix _ _).2.2).1
      (blend_channel_bounds _ _ _ _ _ _ hmu.1 hmu.2 hnu.1 hnu.2
        (hpix _ _).2.2 (hpix _ _).2.2 (hpix _ _).2.2 (hpix _ _).2.2).2

/-- The pixel coordinates `(x_out, y_out)` visited by the double loop
`for x_out in xrange(edge_length): for y_out in xrange(edge_length)`,
in source order. -/
def pixList (edge_length : ℕ) : List (ℕ × ℕ) :=
  (List.range edge_length).flatMap (fun i => (List.range edge_length).map (fun j => (i, j)))

/-- One iteration of the loop body of `generate_cubemap_face`: compute the
pixel color and store it at `(x_out, y_out)` in the output buffer.  `none`
(a raised exception) aborts the remaining iterations. -/
noncomputable def face_step (cube_face_id edge_length : ℕ)
    (acc : Option World) (p : ℕ × ℕ) : Option World :=
  match acc with
  | none => none
  | some w =>
      match generate_face_pixel w.inp cube_face_id edge_length p.1 p.2 with
      | none => none
      | some c => some ⟨w.inp, ⟨w.outp.edge, Function.update w.outp.pix p c⟩⟩

/-- Source function `generate_cubemap_face(input_image, output_image, cube_face_id)`:
`edge_length = output_size[0]`, then the double loop over the output
pixels, threading the world (input image and output buffer). -/
noncomputable def generate_cubemap_face (w : World) (cube_face_id : ℕ) : Option World :=
  let edge_length := w.outp.edge
  (pixList edge_length).foldl (face_step cube_face_id edge_length) (some w)

/-- The source image component of an optional world equals `img`
(vacuously when the computation raised). -/
def preservesInput : Option World → SrcImage → Prop
  | none, _ => True
  | some w, img => w.inp = img

lemma face_step_preservesInput (face E : ℕ) (acc : Option World) (img : SrcImage)
    (p : ℕ × ℕ) (h : preservesInput acc img) :
    preservesInput (face_step face E acc p) img := by
  cases acc with
  | none => exact trivial
  | some w =>
      simp only [face_step]
      cases generate_face_pixel w.inp face E p.1 p.2 with
      | none => exact trivial
      | some c => exact h

lemma foldl_face_step_preservesInput (face E : ℕ) (l : List (ℕ × ℕ)) :
    ∀ (acc : Option World) (img : SrcImage), preservesInput acc img →
      preservesInput (l.foldl (face_step face E) acc) img := by
  induction l with
  | nil => exact fun acc img h => h
  | cons p t ih =>
      intro acc img h
      exact ih _ _ (face_step_preservesInput face E acc img p h)

/-- C8: generating a face never modifies the source image — whatever face
identifier and buffer edge length, if the run completes its resulting
source image is the starting one; only the output buffer is written. -/
theorem generate_face_never_writes_source (w : World) (cube_face_id : ℕ) :
    preservesInput (generate_cubemap_face w cube_face_id) w.inp :=
  foldl_face_step_preservesInput cube_face_id w.outp.edge (pixList w.outp.edge)
    (some w) w.inp rfl

/-- For each of the six faces one branch fires, so a direction is produced. -/
lemma output_image_to_xyz_isSome (i j face E : ℕ) (hface : face < 6) :
    ∃ d, output_image_to_xyz i j face E = some d := by
  interval_cases face <;> simp [output_image_to_xyz, CUBEMAP_FACES]

/-- For a valid face on a positive-size source image the per-pixel body
always produces a color. -/
lemma generate_face_pixel_isSome (img : SrcImage) (face E i j : ℕ)
    (hface : face < 6) (hW : 0 < img.width) (hH : 0 < img.height) :
    ∃ c, generate_face_pixel img face E i j = some c := by
  obtain ⟨⟨x, y, z⟩, hd⟩ := output_image_to_xyz_isSome i j face E hface
  simp only [generate_face_pixel, hd]
  exact ⟨_, bilinear_eq_some img _ _ hW hH⟩

/-- The fold over any pixel list, when every pixel produces a color,
completes and leaves exactly the computed colors at the visited
coordinates and the initial buffer contents elsewhere. -/
lemma foldl_face_step_populates (face E : ℕ) (img : SrcImage)
    (hval : ∀ i j : ℕ, ∃ c, generate_face_pixel img face E i j = some c)
    (l : List (ℕ × ℕ)) :
    ∀ b : FaceBuffer,
      ∃ b2 : FaceBuffer,
        l.foldl (face_step face E) (some ⟨img, b⟩) = some ⟨img, b2⟩ ∧
        b2.edge = b.edge ∧
        (∀ q ∈ l, some (b2.pix q) = generate_face_pixel img face E q.1 q.2) ∧
        (∀ q : ℕ × ℕ, q ∉ l → b2.pix q = b.pix q) := by
  induction l with
  | nil => exact fun b => ⟨b, rfl, rfl, by simp, fun q _ => rfl⟩
  | cons p t ih =>
      intro b
      obtain ⟨c, hc⟩ := hval p.1 p.2
      have hstep : face_step face E (some ⟨img, b⟩) p =
          some ⟨img, ⟨b.edge, Function.update b.pix p c⟩⟩ := by
        simp [face_step, hc]
      obtain ⟨b2, h1, h2, h3, h4⟩ := ih ⟨b.edge, Function.update b.pix p c⟩
      refine ⟨b2, ?_, h2, ?_, ?_⟩
      · rw [List.foldl_cons, hstep]
        exact h1
      · intro q hq
        by_cases hqt : q ∈ t
        · exact h3 q hqt
        · have hqp : q = p := by
            rcases List.mem_cons.mp hq with h | h
            · exact h
            · exact absurd h hqt
          subst hqp
          rw [h4 q hqt]
          show some (Function.update b.pix q c q) = _
          rw [Function.update_same]
          exact hc.symm
      · intro q hq
        have hqt : q ∉ t := fun h => hq (List.mem_cons_of_mem p h)
        have hqp : q ≠ p := fun h => hq (h ▸ List.mem_cons_self p t)
        rw [h4 q hqt]
        exact Function.update_noteq hqp c b.pix

/-- A coordinate pair is visited iff both components are below the edge. -/
lemma mem_pixList (E : ℕ) (q : ℕ × ℕ) : q ∈ pixList E ↔ q.1 < E ∧ q.2 < E := by
  cases q with
  | mk i j =>
      simp [pixList, List.mem_flatMap, List.mem_map, List.mem_range, Prod.ext_iff]

/-- The loop visits no coordinate twice. -/
lemma nodup_pixList (E : ℕ) : (pixList E).Nodup := by
  rw [pixList, List.nodup_flatMap]
  refine ⟨fun i _ => List.Nodup.map (fun a b h => congrArg Prod.snd h) (List.nodup_range E), ?_⟩
  refine List.Nodup.pairwise_of_forall_ne (List.nodup_range E) ?_
  intro a _ b _ hab
  intro q hqa hqb
  rcases List.mem_map.mp hqa with ⟨j1, _, hj1⟩
  rcases List.mem_map.mp hqb with ⟨j2, _, hj2⟩
  have ha2 : a = q.1 := congrArg Prod.fst hj1
  have hb2 : b = q.1 := congrArg Prod.fst hj2
  exact hab (ha2.trans hb2.symm)

/-- In a duplicate-free list every member has count one. -/
lemma count_one_of_nodup_mem (l : List (ℕ × ℕ)) (hl : l.Nodup) (q : ℕ × ℕ)
    (hq : q ∈ l) : l.count q = 1 := by
  induction l with
  | nil => simp at hq
  | cons p t ih =>
      rw [List.count_cons]
      rcases List.mem_cons.mp hq with rfl | hqt
      · rw [List.count_eq_zero.mpr (List.nodup_cons.mp hl).1]
        simp
      · have hnp : q ≠ p := fun h => (List.nodup_cons.mp hl).1 (h ▸ hqt)
        rw [ih (List.nodup_cons.mp hl).2 hqt]
        have hpn : ¬p = q := fun h => hnp h.symm
        simp [hpn]

/-- Each in-range coordinate appears exactly once in the write sequence. -/
lemma count_pixList (E : ℕ) (q : ℕ × ℕ) (h1 : q.1 < E) (h2 : q.2 < E) :
    (pixList E).count q = 1 :=
  count_one_of_nodup_mem (pixList E) (nodup_pixList E) q
    ((mem_pixList E q).mpr ⟨h1, h2⟩)

/-- C9: over the documented domain — a valid face id, positive edge length,
positive-size source — `generate_cubemap_face` completes without raising,
writes every one of the `edge × edge` destination pixels exactly once (the
write sequence visits each coordinate once) and fully populates the buffer
with the per-pixel colors. -/
theorem generate_face_total_and_populates (w : World) (cube_face_id : ℕ)
    (hface : cube_face_id < 6) (hE : 0 < w.outp.edge)
    (hW : 0 < w.inp.width) (hH : 0 < w.inp.height) :
    ∃ w2 : World, generate_cubemap_face w cube_face_id = some w2 ∧
      w2.outp.edge = w.outp.edge ∧
      (∀ q : ℕ × ℕ, q.1 < w.outp.edge → q.2 < w.outp.edge →
        some (w2.outp.pix q) =
          generate_face_pixel w.inp cube_face_id w.outp.edge q.1 q.2) ∧
      (∀ q : ℕ × ℕ, q.1 < w.outp.edge → q.2 < w.outp.edge →
        (pixList w.outp.edge).count q = 1) := by
  obtain ⟨b2, h1, h2, h3, h4⟩ :=
    foldl_face_step_populates cube_face_id w.outp.edge w.inp
      (fun i j => generate_face_pixel_isSome w.inp cube_face_id w.outp.edge i j
        hface hW hH)
      (pixList w.outp.edge) w.outp
  refine ⟨⟨w.inp, b2⟩, ?_, h2, ?_, ?_⟩
  · show (pixList w.outp.edge).foldl (face_step cube_face_id w.outp.edge) (some w) =
      some ⟨w.inp, b2⟩
    exact h1
  · exact fun q hq1 hq2 => h3 q ((mem_pixList _ q).mpr ⟨hq1, hq2⟩)
  · exact fun q hq1 hq2 => count_pixList _ q hq1 hq2

/-- Witness for C9: face `back` on a 1×1 source with a 1×1 buffer. -/
theorem generate_face_total_and_populates_w :
    (0 : ℕ) < 6 ∧
    0 < (World.mk (SrcImage.mk 1 1 (fun _ _ => (1, 2, 3)))
      (FaceBuffer.mk 1 (fun _ => (0, 0, 0)))).outp.edge ∧
    0 < (World.mk (SrcImage.mk 1 1 (fun _ _ => (1, 2, 3)))
      (FaceBuffer.mk 1 (fun _ => (0, 0, 0)))).inp.width ∧
    0 < (World.mk (SrcImage.mk 1 1 (fun _ _ => (1, 2, 3)))
      (FaceBuffer.mk 1 (fun _ => (0, 0, 0)))).inp.height ∧
    ∃ w2 : World,
      generate_cubemap_face
        (World.mk (SrcImage.mk 1 1 (fun _ _ => (1, 2, 3)))
          (FaceBuffer.mk 1 (fun _ => (0, 0, 0)))) 0 = some w2 ∧
      w2.outp.edge = 1 ∧
      (∀ q : ℕ × ℕ, q.1 < 1 → q.2 < 1 →
        some (w2.outp.pix q) =
          generate_face_pixel (SrcImage.mk 1 1 (fun _ _ => (1, 2, 3))) 0 1 q.1 q.2) ∧
      (∀ q : ℕ × ℕ, q.1 < 1 → q.2 < 1 → (pixList 1).count q = 1) :=
  ⟨by decide, by decide, by decide, by decide,
    generate_face_total_and_populates
      (World.mk (SrcImage.mk 1 1 (fun _ _ => (1, 2, 3)))
        (FaceBuffer.mk 1 (fun _ => (0, 0, 0)))) 0
      (by decide) (by decide) (by decide) (by decide)⟩

/-- Witness for C7: a constant 1×1 image sampled at `(0, 0)`. -/
theorem sampler_output_in_range_w :
    (∀ u v, ((SrcImage.mk 1 1 (fun _ _ => (5, 6, 7))).pix u v).1 ≤ 255 ∧
      ((SrcImage.mk 1 1 (fun _ _ => (5, 6, 7))).pix u v).2.1 ≤ 255 ∧
      ((SrcImage.mk 1 1 (fun _ _ => (5, 6, 7))).pix u v).2.2 ≤ 255) ∧
    bilinear (SrcImage.mk 1 1 (fun _ _ => (5, 6, 7))) 0 0 = some (5, 6, 7) ∧
    ((0 ≤ (5 : ℤ) ∧ (5 : ℤ) ≤ 255) ∧ (0 ≤ (6 : ℤ) ∧ (6 : ℤ) ≤ 255) ∧
      (0 ≤ (7 : ℤ) ∧ (7 : ℤ) ≤ 255)) := by
  have hpix : ∀ u v, ((SrcImage.mk 1 1 (fun _ _ => (5, 6, 7))).pix u v).1 ≤ 255 ∧
      ((SrcImage.mk 1 1 (fun _ _ => (5, 6, 7))).pix u v).2.1 ≤ 255 ∧
      ((SrcImage.mk 1 1 (fun _ _ => (5, 6, 7))).pix u v).2.2 ≤ 255 :=
    fun _ _ => ⟨by norm_num, by norm_num, by norm_num⟩
  have hres : bilinear (SrcImage.mk 1 1 (fun _ _ => (5, 6, 7))) 0 0 = some (5, 6, 7) := by
    rw [bilinear_eq_some (SrcImage.mk 1 1 (fun _ _ => (5, 6, 7))) 0 0
      (by decide) (by decide)]
    rw [Int.floor_zero]
    norm_num
    rw [blendRound_zero_weights]
    norm_num
  exact ⟨hpix, hres,
    sampler_output_in_range (SrcImage.mk 1 1 (fun _ _ => (5, 6, 7))) 0 0
      (5, 6, 7) hpix hres⟩

/-- The canonical solid-red 2048×1024 source image. -/
def redImage : SrcImage := ⟨2048, 1024, fun _ _ => (255, 0, 0)⟩

/-- A fresh black face image, `Image.new("RGB", (edge_length, edge_length), "black")`. -/
def blackBuffer (edge_length : ℕ) : FaceBuffer := ⟨edge_length, fun _ => (0, 0, 0)⟩

/-- The core of `generate_cubemap_outputs` after the out-of-scope image
loading and resizing: `edge_length = input_size[0] / 4`, then one
`generate_cubemap_face` run per face on a fresh black buffer, in source
order left, front, right, back, top, bottom. -/
noncomputable def generate_cubemap_outputs (input_image : SrcImage) : List (Option World) :=
  let edge_length := input_image.width / 4
  [generate_cubemap_face ⟨input_image, blackBuffer edge_length⟩ 1,
   generate_cubemap_face ⟨input_image, blackBuffer edge_length⟩ 2,
   generate_cubemap_face ⟨input_image, blackBuffer edge_length⟩ 3,
   generate_cubemap_face ⟨input_image, blackBuffer edge_length⟩ 0,
   generate_cubemap_face ⟨input_image, blackBuffer edge_length⟩ 4,
   generate_cubemap_face ⟨input_image, blackBuffer edge_length⟩ 5]

/-- Blending four identical corners returns that color, whatever the
weights. -/
lemma blendRound_const (c : RGBN) (mu nu : ℝ) :
    blendRound c c c c mu nu = ((c.1 : ℤ), (c.2.1 : ℤ), (c.2.2 : ℤ)) := by
  have e1 : (c.1 : ℝ) * (1 - mu) * (1 - nu) + (c.1 : ℝ) * mu * (1 - nu)
      + (c.1 : ℝ) * (1 - mu) * nu + (c.1 : ℝ) * mu * nu = (c.1 : ℝ) := by ring
  have e2 : (c.2.1 : ℝ) * (1 - mu) * (1 - nu) + (c.2.1 : ℝ) * mu * (1 - nu)
      + (c.2.1 : ℝ) * (1 - mu) * nu + (c.2.1 : ℝ) * mu * nu = (c.2.1 : ℝ) := by ring
  have e3 : (c.2.2 : ℝ) * (1 - mu) * (1 - nu) + (c.2.2 : ℝ) * mu * (1 - nu)
      + (c.2.2 : ℝ) * (1 - mu) * nu + (c.2.2 : ℝ) * mu * nu = (c.2.2 : ℝ) := by ring
  rw [blendRound, e1, e2, e3, pyRound_natCast, pyRound_natCast, pyRound_natCast]

/-- On the solid-red source every pixel of every face samples to pure red. -/
lemma generate_face_pixel_red (face E i j : ℕ) (hface : face < 6) :
    generate_face_pixel redImage face E i j = some (255, 0, 0) := by
  obtain ⟨⟨x, y, z⟩, hd⟩ := output_image_to_xyz_isSome i j face E hface
  simp only [generate_face_pixel, hd]
  rw [bilinear_eq_some redImage _ _ (by norm_num [redImage]) (by norm_num [redImage])]
  show some (blendRound (255, 0, 0) (255, 0, 0) (255, 0, 0) (255, 0, 0) _ _) = _
  rw [blendRound_const]
  norm_num

/-- Each face of the red panorama comes out solid red. -/
lemma generate_face_red (face : ℕ) (hface : face < 6) :
    ∃ w2 : World,
      generate_cubemap_face ⟨redImage, blackBuffer 512⟩ face = some w2 ∧
      w2.outp.edge = 512 ∧
      ∀ q : ℕ × ℕ, q.1 < 512 → q.2 < 512 → w2.outp.pix q = (255, 0, 0) := by
  obtain ⟨b2, h1, h2, h3, _⟩ :=
    foldl_face_step_populates face 512 redImage
      (fun i j => ⟨(255, 0, 0), generate_face_pixel_red face 512 i j hface⟩)
      (pixList 512) (blackBuffer 512)
  refine ⟨⟨redImage, b2⟩, h1, h2, ?_⟩
  intro q hq1 hq2
  have hq := h3 q ((mem_pixList 512 q).mpr ⟨hq1, hq2⟩)
  rw [generate_face_pixel_red face 512 q.1 q.2 hface] at hq
  exact Option.some.inj hq

set_option maxRecDepth 4000 in
/-- C6: on the uniform solid-red 2048×1024 source the program produces six
face buffers, each 512×512 with every pixel exactly `(255, 0, 0)`. -/
theorem cubemap_outputs_all_red (o : Option World)
    (ho : o ∈ generate_cubemap_outputs redImage) :
    (generate_cubemap_outputs redImage).length = 6 ∧
    ∃ w2 : World, o = some w2 ∧ w2.outp.edge = 512 ∧
      ∀ q : ℕ × ℕ, q.1 < 512 → q.2 < 512 → w2.outp.pix q = (255, 0, 0) := by
  refine ⟨rfl, ?_⟩
  have hw : redImage.width / 4 = 512 := by norm_num [redImage]
  simp only [generate_cubemap_outputs, hw, List.mem_cons, List.not_mem_nil,
    or_false] at ho
  rcases ho with h | h | h | h | h | h
  · obtain ⟨w2, hg, he, hp⟩ := generate_face_red 1 (by norm_num)
    exact ⟨w2, h.trans hg, he, hp⟩
  · obtain ⟨w2, hg, he, hp⟩ := generate_face_red 2 (by norm_num)
    exact ⟨w2, h.trans hg, he, hp⟩
  · obtain ⟨w2, hg, he, hp⟩ := generate_face_red 3 (by norm_num)
    exact ⟨w2, h.trans hg, he, hp⟩
  · obtain ⟨w2, hg, he, hp⟩ := generate_face_red 0 (by norm_num)
    exact ⟨w2, h.trans hg, he, hp⟩
  · obtain ⟨w2, hg, he, hp⟩ := generate_face_red 4 (by norm_num)
    exact ⟨w2, h.trans hg, he, hp⟩
  · obtain ⟨w2, hg, he, hp⟩ := generate_face_red 5 (by norm_num)
    exact ⟨w2, h.trans hg, he, hp⟩

/-- Witness for C6: the first produced face buffer. -/
theorem cubemap_outputs_all_red_w :
    generate_cubemap_face ⟨redImage, blackBuffer (redImage.width / 4)⟩ 1
        ∈ generate_cubemap_outputs redImage ∧
    ((generate_cubemap_outputs redImage).length = 6 ∧
      ∃ w2 : World,
        generate_cubemap_face ⟨redImage, blackBuffer (redImage.width / 4)⟩ 1
          = some w2 ∧ w2.outp.edge = 512 ∧
        ∀ q : ℕ × ℕ, q.1 < 512 → q.2 < 512 → w2.outp.pix q = (255, 0, 0)) := by
  have hmem : generate_cubemap_face ⟨redImage, blackBuffer (redImage.width / 4)⟩ 1
      ∈ generate_cubemap_outputs redImage := by
    simp [generate_cubemap_outputs]
  exact ⟨hmem, cubemap_outputs_all_red _ hmem⟩

lemma atan2_posx (y x : ℝ) (hx : 0 < x) : atan2 y x = arctan (y / x) := by
  rw [atan2, if_pos hx]

lemma atan2_negx_nonneg (y x : ℝ) (hx : x < 0) (hy : 0 ≤ y) :
    atan2 y x = arctan (y / x) + π := by
  rw [atan2, if_neg (by linarith), if_pos hx, if_pos hy]

lemma atan2_negx_neg (y x : ℝ) (hx : x < 0) (hy : y < 0) :
    atan2 y x = arctan (y / x) - π := by
  rw [atan2, if_neg (by linarith), if_pos hx, if_neg (by linarith)]

lemma atan2_zerox_pos (y : ℝ) (hy : 0 < y) : atan2 y 0 = π / 2 := by
  rw [atan2, if_neg (lt_irrefl 0), if_neg (lt_irrefl 0), if_pos hy]

lemma atan2_zerox_neg (y : ℝ) (hy : y < 0) : atan2 y 0 = -(π / 2) := by
  rw [atan2, if_neg (lt_irrefl 0), if_neg (lt_irrefl 0), if_neg (by linarith),
    if_pos hy]

lemma arctan_le_pi_quarter (t : ℝ) (h : t ≤ 1) : arctan t ≤ π / 4 := by
  have hm := arctan_strictMono.monotone h
  rwa [arctan_one] at hm

lemma pi_quarter_le_arctan (t : ℝ) (h : 1 ≤ t) : π / 4 ≤ arctan t := by
  have hm := arctan_strictMono.monotone h
  rwa [arctan_one] at hm

lemma neg_pi_quarter_le_arctan (t : ℝ) (h : -1 ≤ t) : -(π / 4) ≤ arctan t := by
  have hm := arctan_strictMono.monotone h
  rwa [show ((-1 : ℝ)) = -(1 : ℝ) by norm_num, arctan_neg, arctan_one] at hm

lemma arctan_le_neg_quarter (t : ℝ) (h : t ≤ -1) : arctan t ≤ -(π / 4) := by
  have hm := arctan_strictMono.monotone h
  rwa [show ((-1 : ℝ)) = -(1 : ℝ) by norm_num, arctan_neg, arctan_one] at hm

lemma hypot_nonneg (x y : ℝ) : 0 ≤ hypot x y := Real.sqrt_nonneg _

lemma abs_le_hypot_left (x y : ℝ) : |x| ≤ hypot x y := by
  rw [hypot, ← Real.sqrt_sq_eq_abs]
  exact Real.sqrt_le_sqrt (by nlinarith [mul_self_nonneg y])

lemma abs_le_hypot_right (x y : ℝ) : |y| ≤ hypot x y := by
  rw [hypot, ← Real.sqrt_sq_eq_abs]
  exact Real.sqrt_le_sqrt (by nlinarith [mul_self_nonneg x])

/-- On a side face (the four faces with `|z| ≤ 1 ≤ r`) the elevation stays
within `[-π/4, π/4]`. -/
lemma phi_side_bound (z r : ℝ) (hz1 : -1 ≤ z) (hz2 : z ≤ 1) (hr : 1 ≤ r) :
    -(π / 4) ≤ atan2 z r ∧ atan2 z r ≤ π / 4 := by
  have hr0 : (0 : ℝ) < r := lt_of_lt_of_le one_pos hr
  rw [atan2_posx z r hr0]
  constructor
  · apply neg_pi_quarter_le_arctan
    rw [le_div_iff₀ hr0]
    nlinarith
  · apply arctan_le_pi_quarter
    rw [div_le_one hr0]
    linarith

/-- Azimuth on the back face (`x = -1`, `-1 < y ≤ 1`). -/
lemma back_theta (y : ℝ) (h1 : -1 < y) (h2 : y ≤ 1) :
    atan2 y (-1) ≤ -(3 * π / 4) ∨ 3 * π / 4 ≤ atan2 y (-1) := by
  rcases le_or_lt 0 y with hy | hy
  · right
    rw [atan2_negx_nonneg y (-1) (by norm_num) hy,
      show y / (-1 : ℝ) = -y by ring, arctan_neg]
    have h3 : arctan y ≤ π / 4 := arctan_le_pi_quarter y h2
    linarith
  · left
    rw [atan2_negx_neg y (-1) (by norm_num) hy,
      show y / (-1 : ℝ) = -y by ring]
    have h3 : arctan (-y) ≤ π / 4 := arctan_le_pi_quarter (-y) (by linarith)
    linarith

/-- Azimuth on the right face (`y = 1`, `-1 < x ≤ 1`). -/
lemma right_theta (x : ℝ) (h1 : -1 < x) (h2 : x ≤ 1) :
    π / 4 ≤ atan2 1 x ∧ atan2 1 x ≤ 3 * π / 4 := by
  rcases lt_trichotomy x 0 with hx | hx | hx
  · rw [atan2_negx_nonneg 1 x hx (by norm_num)]
    have hd : 1 / x ≤ -1 := by
      rw [div_le_iff_of_neg hx]
      linarith
    have h3 : arctan (1 / x) ≤ -(π / 4) := arctan_le_neg_quarter _ hd
    have h4 : -(π / 2) < arctan (1 / x) := neg_pi_div_two_lt_arctan _
    constructor
    · linarith [pi_pos]
    · linarith
  · rw [hx, atan2_zerox_pos 1 one_pos]
    constructor <;> linarith [pi_pos]
  · rw [atan2_posx 1 x hx]
    have hd : 1 ≤ 1 / x := by
      rw [le_div_iff₀ hx]
      linarith
    have h3 : π / 4 ≤ arctan (1 / x) := pi_quarter_le_arctan _ hd
    have h4 : arctan (1 / x) < π / 2 := arctan_lt_pi_div_two _
    constructor
    · linarith
    · linarith [pi_pos]

/-- Azimuth on the left face (`y = -1`, `-1 ≤ x < 1`). -/
lemma left_theta (x : ℝ) (h1 : -1 ≤ x) (h2 : x < 1) :
    -(3 * π / 4) ≤ atan2 (-1) x ∧ atan2 (-1) x ≤ -(π / 4) := by
  rcases lt_trichotomy x 0 with hx | hx | hx
  · rw [atan2_negx_neg (-1) x hx (by norm_num)]
    have hd : 1 ≤ -1 / x := by
      rw [le_div_iff_of_neg hx]
      linarith
    have h3 : π / 4 ≤ arctan (-1 / x) := pi_quarter_le_arctan _ hd
    have h4 : arctan (-1 / x) < π / 2 := arctan_lt_pi_div_two _
    constructor
    · linarith
    · linarith [pi_pos]
  · rw [hx, atan2_zerox_neg (-1) (by norm_num)]
    constructor <;> linarith [pi_pos]
  · rw [atan2_posx (-1) x hx]
    have hd : -1 / x ≤ -1 := by
      rw [div_le_iff₀ hx]
      linarith
    have h3 : arctan (-1 / x) ≤ -(π / 4) := arctan_le_neg_quarter _ hd
    have h4 : -(π / 2) < arctan (-1 / x) := neg_pi_div_two_lt_arctan _
    constructor
    · linarith
    · linarith [pi_pos]

/-- Elevation on the top face (`z = 1`, `r ≥ 0`). -/
lemma top_phi (r : ℝ) (hr : 0 ≤ r) : 0 ≤ atan2 1 r ∧ atan2 1 r ≤ π / 2 := by
  rcases eq_or_lt_of_le hr with hr0 | hr0
  · rw [← hr0, atan2_zerox_pos 1 one_pos]
    constructor <;> linarith [pi_pos]
  · rw [atan2_posx 1 r hr0]
    constructor
    · have hm := arctan_strictMono.monotone (le_of_lt (div_pos one_pos hr0))
      rwa [arctan_zero] at hm
    · linarith [arctan_lt_pi_div_two (1 / r)]

/-- Elevation on the bottom face (`z = -1`, `r ≥ 0`). -/
lemma bottom_phi (r : ℝ) (hr : 0 ≤ r) :
    -(π / 2) ≤ atan2 (-1) r ∧ atan2 (-1) r ≤ 0 := by
  rcases eq_or_lt_of_le hr with hr0 | hr0
  · rw [← hr0, atan2_zerox_neg (-1) (by norm_num)]
    constructor <;> linarith [pi_pos]
  · rw [atan2_posx (-1) r hr0]
    constructor
    · linarith [neg_pi_div_two_lt_arctan (-1 / r)]
    · have hd : -1 / r ≤ 0 := le_of_lt (div_neg_of_neg_of_pos (by norm_num) hr0)
      have hm := arctan_strictMono.monotone hd
      rwa [arctan_zero] at hm

/-- The designated 90°-wide azimuth/elevation wedge of each face: the four
side faces each own a 90° azimuth interval (with elevation within
`[-π/4, π/4]`), the top and bottom faces own the 90° elevation wedges of
the upper and lower hemisphere. -/
def inWedge (face : ℕ) (theta phi : ℝ) : Prop :=
  match face with
  | 0 => (theta ≤ -(3 * π / 4) ∨ 3 * π / 4 ≤ theta) ∧
      -(π / 4) ≤ phi ∧ phi ≤ π / 4
  | 1 => (-(3 * π / 4) ≤ theta ∧ theta ≤ -(π / 4)) ∧
      -(π / 4) ≤ phi ∧ phi ≤ π / 4
  | 2 => (-(π / 4) ≤ theta ∧ theta ≤ π / 4) ∧
      -(π / 4) ≤ phi ∧ phi ≤ π / 4
  | 3 => (π / 4 ≤ theta ∧ theta ≤ 3 * π / 4) ∧
      -(π / 4) ≤ phi ∧ phi ≤ π / 4
  | 4 => 0 ≤ phi ∧ phi ≤ π / 2
  | _ => -(π / 2) ≤ phi ∧ phi ≤ 0

/-- C4: for every pixel of every face at the canonical edge length 512, the
spherical pair `(theta, phi)` computed from the pixel's direction lies in
the wedge designated for that face (e.g. the front face yields
`theta ∈ [-π/4, π/4]`). -/
theorem face_angles_in_wedge (face col row : ℕ) (x y z : ℚ)
    (hface : face < 6) (hcol : col < 512) (hrow : row < 512)
    (hd : output_image_to_xyz col row face 512 = some (x, y, z)) :
    inWedge face (atan2 ((y : ℝ)) ((x : ℝ)))
      (atan2 ((z : ℝ)) (hypot ((x : ℝ)) ((y : ℝ)))) := by
  have hc0 : (0 : ℝ) ≤ (col : ℝ) := Nat.cast_nonneg col
  have hc1 : (col : ℝ) < 512 := by exact_mod_cast hcol
  have hr0 : (0 : ℝ) ≤ (row : ℝ) := Nat.cast_nonneg row
  have hr1 : (row : ℝ) < 512 := by exact_mod_cast hrow
  interval_cases face
  · -- back
    simp [output_image_to_xyz, CUBEMAP_FACES] at hd
    obtain ⟨hx, hy, hz⟩ := hd
    subst hx
    subst hy
    subst hz
    simp only [inWedge]
    push_cast
    constructor
    · exact back_theta _ (by linarith) (by linarith)
    · exact phi_side_bound _ _ (by linarith) (by linarith)
        (le_trans (by norm_num) (abs_le_hypot_left _ _))
  · -- left
    simp [output_image_to_xyz, CUBEMAP_FACES] at hd
    obtain ⟨hx, hy, hz⟩ := hd
    subst hx
    subst hy
    subst hz
    simp only [inWedge]
    push_cast
    constructor
    · exact left_theta _ (by linarith) (by linarith)
    · exact phi_side_bound _ _ (by linarith) (by linarith)
        (le_trans (by norm_num) (abs_le_hypot_right _ _))
  · -- front
    simp [output_image_to_xyz, CUBEMAP_FACES] at hd
    obtain ⟨hx, hy, hz⟩ := hd
    subst hx
    subst hy
    subst hz
    simp only [inWedge]
    push_cast
    constructor
    · exact phi_side_bound _ 1 (by linarith) (by linarith) le_rfl
    · exact phi_side_bound _ _ (by linarith) (by linarith)
        (le_trans (by norm_num) (abs_le_hypot_left _ _))
  · -- right
    simp [output_image_to_xyz, CUBEMAP_FACES] at hd
    obtain ⟨hx, hy, hz⟩ := hd
    subst hx
    subst hy
    subst hz
    simp only [inWedge]
    push_cast
    constructor
    · exact right_theta _ (by linarith) (by linarith)
    · exact phi_side_bound _ _ (by linarith) (by linarith)
        (le_trans (by norm_num) (abs_le_hypot_right _ _))
  · -- top
    simp [output_image_to_xyz, CUBEMAP_FACES] at hd
    obtain ⟨hx, hy, hz⟩ := hd
    subst hx
    subst hy
    subst hz
    simp only [inWedge]
    push_cast
    exact top_phi _ (hypot_nonneg _ _)
  · -- bottom
    simp [output_image_to_xyz, CUBEMAP_FACES] at hd
    obtain ⟨hx, hy, hz⟩ := hd
    subst hx
    subst hy
    subst hz
    simp only [inWedge]
    push_cast
    exact bottom_phi _ (hypot_nonneg _ _)

/-- Witness for C4: the centre pixel of the front face. -/
theorem face_angles_in_wedge_w :
    (2 : ℕ) < 6 ∧ (256 : ℕ) < 512 ∧ (256 : ℕ) < 512 ∧
    output_image_to_xyz 256 256 2 512 = some (1, 0, 0) ∧
    inWedge 2 (atan2 (((0 : ℚ) : ℝ)) (((1 : ℚ) : ℝ)))
      (atan2 (((0 : ℚ) : ℝ)) (hypot (((1 : ℚ) : ℝ)) (((0 : ℚ) : ℝ)))) :=
  ⟨by decide, by decide, by decide,
    by simp [output_image_to_xyz, CUBEMAP_FACES]; norm_num,
    face_angles_in_wedge 2 256 256 1 0 0 (by decide) (by decide) (by decide)
      (by simp [output_image_to_xyz, CUBEMAP_FACES]; norm_num)⟩

end Cubemap
